import Mathlib

/-!
Shallow embedding of the terminal-operator layer of a Go LINQ library
(file `result.go`).

A `Query` produces a pull iterator via `Iterate()`; each call to the
iterator returns the next element together with a liveness flag, and the
flag stays `false` once the sequence is exhausted.  We model a query by
the finite list of elements its iterator yields, and each operator loop
of the source by structural recursion over that list.  Operators that
the claims measure operationally (how many elements a loop pulls before
returning) additionally get an instrumented variant returning the number
of successful `next()` pulls performed.

Go `interface\x7b\x7d` elements are modelled by the closed sum `Elem` of
the numeric runtime types the dispatch layer recognises: the five signed
integer widths, the five unsigned widths and the two float widths.
Integer payloads are carried as `Int`/`Nat`; float payloads are modelled
exactly, as rationals (the claims under study only involve values on
which Go float64 arithmetic is exact).  64-bit accumulation in the sum
loops is modelled with explicit wraparound modulo 2 ^ 64.
-/

namespace GoLinq

/-- Model of a dynamically typed Go value flowing through a query:
one constructor per numeric runtime type recognised by the dispatch
layer of the library. -/
inductive Elem where
  | eint : Int → Elem
  | eint8 : Int → Elem
  | eint16 : Int → Elem
  | eint32 : Int → Elem
  | eint64 : Int → Elem
  | euint : Nat → Elem
  | euint8 : Nat → Elem
  | euint16 : Nat → Elem
  | euint32 : Nat → Elem
  | euint64 : Nat → Elem
  | efloat32 : Rat → Elem
  | efloat64 : Rat → Elem
deriving DecidableEq, Repr

/-- Model of a query: the list of elements its iterator yields. -/
abbrev Query := List Elem

/-- Numeric family of a runtime type, mirroring the three-way type
switch (signed case, unsigned case, default case) used by `Average`
and by the converter selection. -/
inductive Fam where
  | signed : Fam
  | unsigned : Fam
  | other : Fam
deriving DecidableEq, Repr

/-- Family classification of an element, mirroring the Go type switch
`case int, int8, int16, int32, int64` / `case uint, ...` / `default`. -/
def famOf : Elem → Fam
  | .eint _ => .signed
  | .eint8 _ => .signed
  | .eint16 _ => .signed
  | .eint32 _ => .signed
  | .eint64 _ => .signed
  | .euint _ => .unsigned
  | .euint8 _ => .unsigned
  | .euint16 _ => .unsigned
  | .euint32 _ => .unsigned
  | .euint64 _ => .unsigned
  | .efloat32 _ => .other
  | .efloat64 _ => .other

/-- `All` (result.go lines 9-19): drains the iterator and returns
`false` at the first element failing the predicate, `true` when the
sequence is exhausted. -/
def All (predicate : Elem → Bool) : Query → Bool
  | [] => true
  | x :: xs => if predicate x then All predicate xs else false

/-- `AnyWith` (result.go lines 49-59): drains the iterator and returns
`true` at the first element satisfying the predicate, `false` when the
sequence is exhausted. -/
def AnyWith (predicate : Elem → Bool) : Query → Bool
  | [] => false
  | x :: xs => if predicate x then true else AnyWith predicate xs

/-- `First` (result.go lines 187-190): one pull of the iterator; the
pulled item is returned, which is the Go nil (`none`) when the sequence
is empty. -/
def First : Query → Option Elem
  | [] => none
  | x :: _ => some x

/-- Instrumented `First`: result together with the number of elements
successfully pulled (always at most one). -/
def firstC : Query → Option Elem × Nat
  | [] => (none, 0)
  | x :: _ => (some x, 1)

/-- `FirstWith` (result.go lines 194-204): returns the first element
satisfying the predicate, the Go nil (`none`) when none does. -/
def FirstWith (predicate : Elem → Bool) : Query → Option Elem
  | [] => none
  | x :: xs => if predicate x then some x else FirstWith predicate xs

/-- Instrumented `FirstWith`: result together with the number of
elements pulled before returning. -/
def firstWithC (predicate : Elem → Bool) : Query → Option Elem × Nat
  | [] => (none, 0)
  | x :: xs =>
    if predicate x then (some x, 1)
    else
      let rc := firstWithC predicate xs
      (rc.1, rc.2 + 1)

/-- `SequenceEqual` (result.go lines 327-340): lock-step comparison of
two iterators; `false` at the first mismatch or when the second side
exhausts early, and after the first side exhausts, `true` exactly when
one further pull of the second side reports exhaustion too. -/
def SequenceEqual : Query → Query → Bool
  | [], q2 => q2.isEmpty
  | _ :: _, [] => false
  | x :: xs, y :: ys => if x = y then SequenceEqual xs ys else false

/-- Observable event on the output channel of `ToChannel`: a value sent,
or the channel being closed. -/
inductive ChanEvent where
  | send : Elem → ChanEvent
  | close : ChanEvent
deriving DecidableEq, Repr

/-- Test for the close event. -/
def ChanEvent.isClose : ChanEvent → Bool
  | .close => true
  | .send _ => false

/-- Values carried by the send events of a channel trace, in order. -/
def sentValues (trace : List ChanEvent) : List Elem :=
  trace.filterMap fun e =>
    match e with
    | .send x => some x
    | .close => none

/-- `ToChannel` (result.go lines 465-473): sends every element to the
output channel, then closes it.  Modelled as the trace of channel
events it performs. -/
def ToChannel : Query → List ChanEvent
  | [] => [ChanEvent.close]
  | x :: xs => ChanEvent.send x :: ToChannel xs

/-- Modelled from the spec: `getIntConverter` is not under src; the
specification states that the signed integer family converter widens every
signed element to the largest signed representation (int64).  Elements
outside the signed family are outside the caller contract for the signed
operators (the spec leaves mixing incompatible families undefined); the
model maps them to 0. -/
def widenInt : Elem → Int
  | .eint n => n
  | .eint8 n => n
  | .eint16 n => n
  | .eint32 n => n
  | .eint64 n => n
  | _ => 0

/-- Modelled from the spec: converter selection for the signed family, from
a sample element; every signed element widens to int64. -/
def getIntConverter (_sample : Elem) : Elem → Int := widenInt

/-- Modelled from the spec: `getUIntConverter` is not under src; the
unsigned family converter widens every unsigned element to the largest
unsigned representation (uint64).  Elements outside the unsigned family map
to 0 (outside the caller contract). -/
def widenUInt : Elem → Nat
  | .euint n => n
  | .euint8 n => n
  | .euint16 n => n
  | .euint32 n => n
  | .euint64 n => n
  | _ => 0

/-- Modelled from the spec: converter selection for the unsigned family. -/
def getUIntConverter (_sample : Elem) : Elem → Nat := widenUInt

/-- Modelled from the spec: `getFloatConverter` is not under src; the float
widening converter is the universal fallback family.  Float payloads are
modelled exactly as rationals; elements of other families map to 0 (outside
the caller contract of the float operators). -/
def floatVal : Elem → Rat
  | .efloat32 q => q
  | .efloat64 q => q
  | _ => 0

/-- Modelled from the spec: converter selection for the float fallback
family. -/
def getFloatConverter (_sample : Elem) : Elem → Rat := floatVal

/-- Wraparound of an unbounded integer into the int64 range, modelling Go
int64 two-complement overflow. -/
def wrapInt64 (n : Int) : Int := (n + 2 ^ 63) % 2 ^ 64 - 2 ^ 63

/-- Go int64 addition: exact addition followed by wraparound. -/
def int64Add (a b : Int) : Int := wrapInt64 (a + b)

/-- Go uint64 addition: exact addition reduced modulo 2 ^ 64. -/
def uint64Add (a b : Nat) : Nat := (a + b) % 2 ^ 64

/-- Accumulation loop of `SumInts` (result.go lines 414-416): the running
int64 total absorbs the converted value of every further element. -/
def sumIntsLoop (conv : Elem → Int) (r : Int) : Query → Int
  | [] => r
  | x :: xs => sumIntsLoop conv (int64Add r (conv x)) xs

/-- `SumInts` (result.go lines 404-419): zero on the empty sequence;
otherwise the signed converter is selected from the first element, the
first converted value seeds the int64 total and the loop accumulates the
rest. -/
def SumInts : Query → Int
  | [] => 0
  | x :: xs => sumIntsLoop (getIntConverter x) (getIntConverter x x) xs

/-- Exact model of a Go float64 result: the NaN sentinel, or an exact
rational value. -/
inductive F64 where
  | nan : F64
  | val : Rat → F64
deriving DecidableEq, Repr

/-- Signed branch loop of `Average` (result.go lines 97-100): accumulates
the int64 sum and the element count. -/
def avgIntLoop (conv : Elem → Int) : Int → Nat → Query → Int × Nat
  | sum, n, [] => (sum, n)
  | sum, n, x :: xs => avgIntLoop conv (int64Add sum (conv x)) (n + 1) xs

/-- Unsigned branch loop of `Average` (result.go lines 107-110):
accumulates the uint64 sum and the element count. -/
def avgUIntLoop (conv : Elem → Nat) : Nat → Nat → Query → Nat × Nat
  | sum, n, [] => (sum, n)
  | sum, n, x :: xs => avgUIntLoop conv (uint64Add sum (conv x)) (n + 1) xs

/-- Default branch loop of `Average` (result.go lines 117-120):
accumulates the float64 running value, modelled exactly, and the element
count. -/
def avgFloatLoop (conv : Elem → Rat) : Rat → Nat → Query → Rat × Nat
  | r, n, [] => (r, n)
  | r, n, x :: xs => avgFloatLoop conv (r + conv x) (n + 1) xs

/-- `Average` (result.go lines 84-124): the NaN sentinel on the empty
sequence; otherwise a three-way type switch on the first element selects
the converter family, the converted values are summed together with the
element count, and the sum is divided by the count. -/
def Average : Query → F64
  | [] => F64.nan
  | x :: xs =>
    match famOf x with
    | .signed =>
      let conv := getIntConverter x
      let sn := avgIntLoop conv (conv x) 1 xs
      F64.val ((sn.1 : Rat) / (sn.2 : Rat))
    | .unsigned =>
      let conv := getUIntConverter x
      let sn := avgUIntLoop conv (conv x) 1 xs
      F64.val ((sn.1 : Rat) / (sn.2 : Rat))
    | .other =>
      let conv := getFloatConverter x
      let rn := avgFloatLoop conv (conv x) 1 xs
      F64.val (rn.1 / (rn.2 : Rat))

/-- Widened exact numeric value of an element, used to state the numeric
claims. -/
def numVal : Elem → Rat
  | .eint n => (n : Rat)
  | .eint8 n => (n : Rat)
  | .eint16 n => (n : Rat)
  | .eint32 n => (n : Rat)
  | .eint64 n => (n : Rat)
  | .euint n => (n : Rat)
  | .euint8 n => (n : Rat)
  | .euint16 n => (n : Rat)
  | .euint32 n => (n : Rat)
  | .euint64 n => (n : Rat)
  | .efloat32 q => q
  | .efloat64 q => q

/-- Decidable check that every element belongs to the numeric family of the
head element: the caller contract of the numeric operators, whose converter
is selected from the first element only. -/
def homogeneous : Query → Bool
  | [] => true
  | x :: xs => xs.all fun e => famOf e == famOf x

/-- Decidable no-overflow condition on the accumulator of the family
selected by the first element. -/
def fits : Query → Bool
  | [] => true
  | x :: xs =>
    match famOf x with
    | .signed => decide ((((x :: xs).map fun e => (widenInt e).natAbs).sum) < 2 ^ 63)
    | .unsigned => decide ((((x :: xs).map widenUInt).sum) < 2 ^ 64)
    | .other => true

/-- Modelled from the spec: `getComparer` is not under src; the comparer
selected from a sample element implements a total order on numeric runtime
types by comparing numeric values, returning a negative, zero or positive
integer. -/
def compareByNum (a b : Elem) : Int :=
  if numVal a < numVal b then -1 else if numVal b < numVal a then 1 else 0

/-- Modelled from the spec: comparer selection from the first element of
the sequence. -/
def getComparer (_sample : Elem) : Elem → Elem → Int := compareByNum

/-- Running-best loop of `Max` (result.go lines 286-290): the best is
replaced only by a strictly greater element. -/
def maxLoop (compare : Elem → Elem → Int) (r : Elem) : Query → Elem
  | [] => r
  | x :: xs => maxLoop compare (if compare x r > 0 then x else r) xs

/-- `Max` (result.go lines 276-293): nil on the empty sequence; otherwise
the comparer is selected from the first element, the first element seeds
the running best and the loop scans the rest once. -/
def Max : Query → Option Elem
  | [] => none
  | x :: xs => some (maxLoop (getComparer x) x xs)

/-- Running-best loop of `Min` (result.go lines 306-310): the best is
replaced only by a strictly smaller element. -/
def minLoop (compare : Elem → Elem → Int) (r : Elem) : Query → Elem
  | [] => r
  | x :: xs => minLoop compare (if compare x r < 0 then x else r) xs

/-- `Min` (result.go lines 296-313): nil on the empty sequence; otherwise
the comparer is selected from the first element, the first element seeds
the running best and the loop scans the rest once. -/
def Min : Query → Option Elem
  | [] => none
  | x :: xs => some (minLoop (getComparer x) x xs)

/-- Found-flag loop of `SingleWith` (result.go lines 365-374): a match
while the flag is already set returns nil immediately; otherwise a match
sets the flag and records the element, and the scan continues. -/
def singleWithLoop (predicate : Elem → Bool) :
    Bool → Option Elem → Query → Option Elem
  | _, r, [] => r
  | found, r, x :: xs =>
    if predicate x then
      if found then none
      else singleWithLoop predicate true (some x) xs
    else singleWithLoop predicate found r xs

/-- `SingleWith` (result.go lines 361-377): the found flag starts clear
and the recorded element starts as the Go nil. -/
def SingleWith (predicate : Elem → Bool) (q : Query) : Option Elem :=
  singleWithLoop predicate false none q

/-- Instrumented found-flag loop: additionally counts the elements pulled
from the iterator. -/
def singleWithLoopC (predicate : Elem → Bool) :
    Bool → Option Elem → Nat → Query → Option Elem × Nat
  | _, r, c, [] => (r, c)
  | found, r, c, x :: xs =>
    if predicate x then
      if found then (none, c + 1)
      else singleWithLoopC predicate true (some x) (c + 1) xs
    else singleWithLoopC predicate found r (c + 1) xs

/-- Instrumented `SingleWith`: result together with the number of elements
pulled before returning. -/
def singleWithC (predicate : Elem → Bool) (q : Query) : Option Elem × Nat :=
  singleWithLoopC predicate false none 0 q

/-- Model of a Go slice as seen through the reflect layer: the backing
array (whose length is the capacity) and the visible length.  Backing
slots never written hold the zero value of the element type, modelled as
`none`. -/
structure GoSlice where
  storage : List (Option Elem)
  len : Nat
deriving DecidableEq, Repr

/-- Capacity of a slice: the length of its backing array. -/
def GoSlice.cap (s : GoSlice) : Nat := s.storage.length

/-- Doubling loop of `grow` (result.go lines 580-582): the capacity is
doubled until it reaches the new length.  The source reaches this loop
only with positive capacity; the zero guard merely keeps the recursion
total and is never taken from `grow`. -/
def doubleUntil (cap newLen : Nat) : Nat :=
  if cap = 0 then newLen
  else if cap < newLen then doubleUntil (2 * cap) newLen
  else cap
termination_by newLen - cap
decreasing_by
  simp_wf
  omega

/-- `grow` (result.go lines 570-587): when the new length fits the
capacity the backing array is reused and only the view is extended;
otherwise a zero-filled backing array of the grown capacity is allocated
(the requested extra when capacity is zero, doubling otherwise) and the
visible elements are copied over. -/
def grow (s : GoSlice) (extra : Nat) : GoSlice :=
  if s.len + extra ≤ s.cap then { storage := s.storage, len := s.len + extra }
  else
    let cap2 := if s.cap = 0 then extra else doubleUntil s.cap (s.len + extra)
    { storage := s.storage.take s.len ++ List.replicate (cap2 - s.len) none,
      len := s.len + extra }

/-- Indexed element write of `ToSlice` (result.go line 561). -/
def GoSlice.setAt (s : GoSlice) (i : Nat) (v : Elem) : GoSlice :=
  { s with storage := s.storage.set i (some v) }

/-- Copy loop of `ToSlice` (result.go lines 556-563): grows by one
whenever the write index reaches the current length, writes at the index
and advances. -/
def toSliceLoop : GoSlice → Nat → Query → GoSlice × Nat
  | s, index, [] => (s, index)
  | s, index, x :: xs =>
    let s1 := if s.len ≤ index then grow s 1 else s
    toSliceLoop (s1.setAt index x) (index + 1) xs

/-- `ToSlice` (result.go lines 552-566): runs the copy loop from index 0
and finally stores the view of the first `index` elements, which keeps
the backing array (hence the capacity) and sets the length to the number
of elements written. -/
def ToSlice (q : Query) (result : GoSlice) : GoSlice :=
  { storage := (toSliceLoop result 0 q).1.storage, len := (toSliceLoop result 0 q).2 }

/-- Modelled from the spec: a caller-supplied typed callable together
with its declared signature shape as inspected by the generic function
layer, whose pieces (`newGenericFunc`, `simpleParamValidator`,
`genericType`) are not under src.  `numIn` is the declared parameter
count, `inGeneric` records whether the parameter types match the generic
element constraint, `outBool` whether the declared return type is bool,
and `run` is the underlying predicate invoked on elements. -/
structure TypedFn where
  numIn : Nat
  inGeneric : Bool
  outBool : Bool
  run : Elem → Bool

/-- Modelled from the spec: construction-time validation of a typed
callable against the shape constraint of one generic parameter and a bool
return; a mismatch is a fatal construction error naming the operator and
the offending parameter, raised before any element is processed. -/
def newGenericFunc (op param : String) (f : TypedFn) :
    Except String (Elem → Bool) :=
  if f.numIn = 1 ∧ f.inGeneric = true ∧ f.outBool = true then Except.ok f.run
  else Except.error (op ++ ": invalid signature for " ++ param)

/-- `AllT` (result.go lines 26-40): validates the typed predicate at
construction time, panicking on a validation error, and otherwise
delegates to the untyped `All` on the wrapped predicate.  The Go panic is
modelled as the error branch of `Except`. -/
def AllT (predicateFn : TypedFn) (q : Query) : Except String Bool :=
  match newGenericFunc "AllT" "predicateFn" predicateFn with
  | Except.error e => Except.error e
  | Except.ok g => Except.ok (All g q)

/-- Instrumented `All` loop: result together with the number of elements
pulled before returning. -/
def allC (p : Elem → Bool) : Query → Bool × Nat
  | [] => (true, 0)
  | x :: xs =>
    if p x then
      let rc := allC p xs
      (rc.1, rc.2 + 1)
    else (false, 1)

/-- Instrumented `AllT`: the panic branch fires before the iterator is
ever requested, so it pulls zero elements. -/
def allTC (predicateFn : TypedFn) (q : Query) : Except String Bool × Nat :=
  match newGenericFunc "AllT" "predicateFn" predicateFn with
  | Except.error e => (Except.error e, 0)
  | Except.ok g => ((Except.ok (allC g q).1 : Except String Bool), (allC g q).2)

/-- Length of a `takeWhile` prefix is bounded by the list length. -/
theorem takeWhile_length_le (p : Elem → Bool) (l : List Elem) :
    (l.takeWhile p).length ≤ l.length := by
  induction l with
  | nil => simp [List.takeWhile]
  | cons x xs ih =>
    by_cases hp : p x = true
    · simpa [List.takeWhile, hp] using ih
    · simp only [Bool.not_eq_true] at hp
      simp [List.takeWhile, hp]

/-- C10: `All p` equals the negation of `AnyWith` on the pointwise
negated predicate, for every predicate and every finite query. -/
theorem all_eq_not_anyWith_not :
    ∀ (p : Elem → Bool) (q : Query), All p q = !AnyWith (fun x => !p x) q := by
  intro p q
  induction q with
  | nil => rfl
  | cons x xs ih =>
    by_cases hp : p x = true
    · simp [All, AnyWith, hp, ih]
    · simp only [Bool.not_eq_true] at hp
      simp [All, AnyWith, hp]

/-- C4: `SequenceEqual` returns `true` exactly when the two sequences
are equal as lists, that is, when both exhaust simultaneously with
pairwise equal elements; in particular the three examples from the
specification hold. -/
theorem sequenceEqual_spec :
    (∀ q q2 : Query, SequenceEqual q q2 = true ↔ q = q2) ∧
    SequenceEqual [Elem.eint 1, Elem.eint 2, Elem.eint 3]
      [Elem.eint 1, Elem.eint 2, Elem.eint 3] = true ∧
    SequenceEqual [Elem.eint 1, Elem.eint 2]
      [Elem.eint 1, Elem.eint 2, Elem.eint 3] = false ∧
    SequenceEqual ([] : Query) ([] : Query) = true := by
  refine ⟨?_, by decide, by decide, by decide⟩
  intro q
  induction q with
  | nil =>
    intro q2
    cases q2 <;> simp [SequenceEqual]
  | cons x xs ih =>
    intro q2
    cases q2 with
    | nil => simp [SequenceEqual]
    | cons y ys =>
      by_cases hxy : x = y
      · subst hxy
        simp [SequenceEqual, ih]
      · simp [SequenceEqual, hxy]

/-- C9: `ToChannel` emits exactly the send events of the elements in
sequence order followed by a single close event; the close event occurs
exactly once, the sent values are exactly the sequence, and the empty
sequence produces a trace that is just the close event. -/
theorem toChannel_spec :
    (∀ q : Query, ToChannel q = q.map ChanEvent.send ++ [ChanEvent.close]) ∧
    (∀ q : Query, ((ToChannel q).filter ChanEvent.isClose).length = 1) ∧
    (∀ q : Query, sentValues (ToChannel q) = q) ∧
    ToChannel [] = [ChanEvent.close] := by
  have hmap : ∀ q : Query, ToChannel q = q.map ChanEvent.send ++ [ChanEvent.close] := by
    intro q
    induction q with
    | nil => rfl
    | cons x xs ih => simp [ToChannel, ih]
  refine ⟨hmap, ?_, ?_, rfl⟩
  · intro q
    rw [hmap]
    induction q with
    | nil => rfl
    | cons x xs ih => simp [ChanEvent.isClose, ih]
  · intro q
    rw [hmap]
    induction q with
    | nil => rfl
    | cons x xs ih => simpa [sentValues, ChanEvent.isClose] using ih

/-- C8: `First` returns the Go nil on the empty sequence and the head
element otherwise, pulling at most one element; `FirstWith` returns nil
exactly when the sequence is empty or no element matches, returns the
first matching element otherwise, and pulls elements only up to the
first match or to exhaustion. -/
theorem first_firstWith_spec :
    First [] = none ∧
    (∀ (x : Elem) (xs : List Elem), First (x :: xs) = some x) ∧
    (∀ q : Query, (firstC q).1 = First q ∧ (firstC q).2 = min 1 q.length) ∧
    (∀ (p : Elem → Bool) (q : Query),
      FirstWith p q = none ↔ ∀ x ∈ q, p x = false) ∧
    (∀ (p : Elem → Bool) (l₁ : List Elem) (m : Elem) (l₂ : List Elem),
      (∀ y ∈ l₁, p y = false) → p m = true →
      FirstWith p (l₁ ++ m :: l₂) = some m) ∧
    (∀ (p : Elem → Bool) (q : Query),
      (firstWithC p q).1 = FirstWith p q ∧
      (firstWithC p q).2 = min q.length ((q.takeWhile fun x => !p x).length + 1)) := by
  refine ⟨rfl, fun x xs => rfl, ?_, ?_, ?_, ?_⟩
  · intro q
    cases q <;> simp [firstC, First]
  · intro p q
    induction q with
    | nil => simp [FirstWith]
    | cons x xs ih =>
      by_cases hp : p x = true
      · simp [FirstWith, hp]
      · simp only [Bool.not_eq_true] at hp
        simp [FirstWith, hp, ih]
  · intro p l₁ m l₂ h1 hm
    induction l₁ with
    | nil => simp [FirstWith, hm]
    | cons y ys ih =>
      have hy : p y = false := h1 y (by simp)
      simpa [FirstWith, hy] using ih fun z hz => h1 z (by simp [hz])
  · intro p q
    induction q with
    | nil => simp [firstWithC, FirstWith]
    | cons x xs ih =>
      by_cases hp : p x = true
      · have htw : (x :: xs).takeWhile (fun y => !p y) = [] := by
          simp [List.takeWhile_cons, hp]
        simp only [firstWithC, FirstWith, hp, if_pos, htw]
        simp [Nat.min_def]
      · simp only [Bool.not_eq_true] at hp
        have htw : (x :: xs).takeWhile (fun y => !p y) =
            x :: xs.takeWhile (fun y => !p y) := by
          simp [List.takeWhile_cons, hp]
        simp only [firstWithC, FirstWith, hp, Bool.false_eq_true, if_false, htw]
        refine ⟨ih.1, ?_⟩
        rw [ih.2]
        have hle := takeWhile_length_le (fun y => !p y) xs
        simp only [List.length_cons, Nat.min_def]
        split <;> split <;> omega

/-- Witness for C8 at a concrete input: the first match wins and the
no-match characterisation holds on the empty sequence. -/
theorem first_firstWith_spec_witness :
    FirstWith (fun e => decide (e = Elem.eint 2))
      ([Elem.eint 1] ++ Elem.eint 2 :: [Elem.eint 3]) = some (Elem.eint 2) :=
  first_firstWith_spec.2.2.2.2.1 (fun e => decide (e = Elem.eint 2))
    [Elem.eint 1] (Elem.eint 2) [Elem.eint 3] (by decide) (by decide)

/-- Wraparound is the identity inside the int64 range. -/
theorem wrapInt64_eq_self {n : Int} (h1 : -(2 ^ 63) ≤ n) (h2 : n < 2 ^ 63) :
    wrapInt64 n = n := by
  unfold wrapInt64
  rw [Int.emod_eq_of_lt (by omega) (by omega)]
  omega

/-- Sum loop evaluates to the exact sum when the total absolute weight of
the accumulator seed and the remaining elements stays below 2 ^ 63, so no
partial sum ever wraps. -/
theorem sumIntsLoop_eq (conv : Elem → Int) :
    ∀ (l : Query) (r : Int),
      r.natAbs + (l.map fun e => (conv e).natAbs).sum < 2 ^ 63 →
      sumIntsLoop conv r l = r + (l.map conv).sum := by
  intro l
  induction l with
  | nil => intro r _; simp [sumIntsLoop]
  | cons x xs ih =>
    intro r h
    simp only [List.map_cons, List.sum_cons] at h ⊢
    have habs : (r + conv x).natAbs ≤ r.natAbs + (conv x).natAbs :=
      Int.natAbs_add_le r (conv x)
    have hadd : int64Add r (conv x) = r + conv x := by
      unfold int64Add
      apply wrapInt64_eq_self <;> omega
    rw [sumIntsLoop, hadd, ih (r + conv x) (by omega)]
    ring

/-- C1: `SumInts` returns 0 on the empty sequence; on every sequence whose
elements are signed integers of any width, with total widened absolute
value below 2 ^ 63 (the no-overflow caller contract of the int64
accumulator), it returns the exact sum of the elements widened to int64.
Mixed signed widths are covered, the hypothesis ranging over all five
signed constructors. -/
theorem sumInts_spec :
    SumInts [] = 0 ∧
    ∀ q : Query, (∀ e ∈ q, famOf e = Fam.signed) →
      (q.map fun e => (widenInt e).natAbs).sum < 2 ^ 63 →
      SumInts q = (q.map widenInt).sum := by
  refine ⟨rfl, ?_⟩
  intro q _hfam hfit
  cases q with
  | nil => simp [SumInts]
  | cons x xs =>
    simp only [List.map_cons, List.sum_cons] at hfit ⊢
    show sumIntsLoop widenInt (widenInt x) xs = widenInt x + (xs.map widenInt).sum
    exact sumIntsLoop_eq widenInt xs (widenInt x) (by omega)

/-- Witness for C1: the sum of a mixed-width signed sequence containing an
int8, an int and an int64 element is 6 by widening. -/
theorem sumInts_spec_witness :
    SumInts [Elem.eint8 1, Elem.eint 2, Elem.eint64 3] = 6 := by
  have h := sumInts_spec.2 [Elem.eint8 1, Elem.eint 2, Elem.eint64 3]
    (by decide) (by decide)
  rw [h]
  decide

/-- Signed average loop computes the exact sum and total count below the
overflow bound. -/
theorem avgIntLoop_eq (conv : Elem → Int) :
    ∀ (l : Query) (sum : Int) (n : Nat),
      sum.natAbs + (l.map fun e => (conv e).natAbs).sum < 2 ^ 63 →
      avgIntLoop conv sum n l = (sum + (l.map conv).sum, n + l.length) := by
  intro l
  induction l with
  | nil => intro sum n _; simp [avgIntLoop]
  | cons x xs ih =>
    intro sum n h
    simp only [List.map_cons, List.sum_cons, List.length_cons] at h ⊢
    have habs : (sum + conv x).natAbs ≤ sum.natAbs + (conv x).natAbs :=
      Int.natAbs_add_le sum (conv x)
    have hadd : int64Add sum (conv x) = sum + conv x := by
      unfold int64Add
      apply wrapInt64_eq_self <;> omega
    rw [avgIntLoop, hadd, ih (sum + conv x) (n + 1) (by omega)]
    exact Prod.ext (by ring) (by omega)

/-- Unsigned average loop computes the exact sum and total count below the
overflow bound. -/
theorem avgUIntLoop_eq (conv : Elem → Nat) :
    ∀ (l : Query) (sum : Nat) (n : Nat),
      sum + (l.map conv).sum < 2 ^ 64 →
      avgUIntLoop conv sum n l = (sum + (l.map conv).sum, n + l.length) := by
  intro l
  induction l with
  | nil => intro sum n _; simp [avgUIntLoop]
  | cons x xs ih =>
    intro sum n h
    simp only [List.map_cons, List.sum_cons, List.length_cons] at h ⊢
    have hadd : uint64Add sum (conv x) = sum + conv x := by
      unfold uint64Add
      exact Nat.mod_eq_of_lt (by omega)
    rw [avgUIntLoop, hadd, ih (sum + conv x) (n + 1) (by omega)]
    exact Prod.ext (by dsimp; ring) (by dsimp; omega)

/-- Float average loop computes the exact sum and total count. -/
theorem avgFloatLoop_eq (conv : Elem → Rat) :
    ∀ (l : Query) (r : Rat) (n : Nat),
      avgFloatLoop conv r n l = (r + (l.map conv).sum, n + l.length) := by
  intro l
  induction l with
  | nil => intro r n; simp [avgFloatLoop]
  | cons x xs ih =>
    intro r n
    simp only [List.map_cons, List.sum_cons, List.length_cons]
    rw [avgFloatLoop, ih (r + conv x) (n + 1)]
    exact Prod.ext (by dsimp; ring) (by dsimp; omega)

/-- Signed elements widen to their exact numeric value. -/
theorem widenInt_cast {e : Elem} (h : famOf e = Fam.signed) :
    ((widenInt e : Int) : Rat) = numVal e := by
  cases e <;> simp_all [famOf, widenInt, numVal]

/-- Unsigned elements widen to their exact numeric value. -/
theorem widenUInt_cast {e : Elem} (h : famOf e = Fam.unsigned) :
    ((widenUInt e : Nat) : Rat) = numVal e := by
  cases e <;> simp_all [famOf, widenUInt, numVal]

/-- Float elements convert to their exact numeric value. -/
theorem floatVal_eq {e : Elem} (h : famOf e = Fam.other) :
    floatVal e = numVal e := by
  cases e <;> simp_all [famOf, floatVal, numVal]

/-- Cast of the widened signed sum is the sum of numeric values. -/
theorem map_widenInt_sum_cast :
    ∀ {l : Query}, (∀ e ∈ l, famOf e = Fam.signed) →
      (((l.map widenInt).sum : Int) : Rat) = (l.map numVal).sum := by
  intro l
  induction l with
  | nil => intro _; simp
  | cons x xs ih =>
    intro h
    simp only [List.map_cons, List.sum_cons, Int.cast_add]
    rw [widenInt_cast (h x (by simp)), ih fun e he => h e (by simp [he])]

/-- Cast of the widened unsigned sum is the sum of numeric values. -/
theorem map_widenUInt_sum_cast :
    ∀ {l : Query}, (∀ e ∈ l, famOf e = Fam.unsigned) →
      (((l.map widenUInt).sum : Nat) : Rat) = (l.map numVal).sum := by
  intro l
  induction l with
  | nil => intro _; simp
  | cons x xs ih =>
    intro h
    simp only [List.map_cons, List.sum_cons, Nat.cast_add]
    rw [widenUInt_cast (h x (by simp)), ih fun e he => h e (by simp [he])]

/-- Float sums equal the sums of numeric values on the fallback family. -/
theorem map_floatVal_sum :
    ∀ {l : Query}, (∀ e ∈ l, famOf e = Fam.other) →
      (l.map floatVal).sum = (l.map numVal).sum := by
  intro l
  induction l with
  | nil => intro _; simp
  | cons x xs ih =>
    intro h
    simp only [List.map_cons, List.sum_cons]
    rw [floatVal_eq (h x (by simp)), ih fun e he => h e (by simp [he])]

/-- C2: `Average` returns the NaN sentinel on the empty sequence, which is
neither a zero value nor an error, and on every nonempty family-homogeneous
numeric sequence inside the accumulator range it returns the exact sum of
the element values divided by the element count; in particular the average
of the sequence 2, 4 is 3. -/
theorem average_spec :
    Average [] = F64.nan ∧
    Average [] ≠ F64.val 0 ∧
    (∀ q : Query, q ≠ [] → homogeneous q = true → fits q = true →
      Average q = F64.val ((q.map numVal).sum / (q.length : Rat))) ∧
    Average [Elem.eint 2, Elem.eint 4] = F64.val 3 := by
  have hmain : ∀ q : Query, q ≠ [] → homogeneous q = true → fits q = true →
      Average q = F64.val ((q.map numVal).sum / (q.length : Rat)) := by
    intro q hne hhom hfit
    cases q with
    | nil => exact absurd rfl hne
    | cons x xs =>
      have hhom2 : ∀ e ∈ xs, famOf e = famOf x := by
        simpa [homogeneous, List.all_eq_true] using hhom
      cases hfam : famOf x with
      | signed =>
        have hall : ∀ e ∈ x :: xs, famOf e = Fam.signed := by
          intro e he
          rcases List.mem_cons.1 he with rfl | he2
          · exact hfam
          · rw [hhom2 e he2, hfam]
        have hfit2 : ((x :: xs).map fun e => (widenInt e).natAbs).sum < 2 ^ 63 := by
          simpa [fits, hfam] using hfit
        simp only [List.map_cons, List.sum_cons] at hfit2
        simp only [Average, hfam]
        show F64.val
            ((((avgIntLoop widenInt (widenInt x) 1 xs).1 : Int) : Rat) /
              (((avgIntLoop widenInt (widenInt x) 1 xs).2 : Nat) : Rat)) = _
        rw [avgIntLoop_eq widenInt xs (widenInt x) 1 (by omega)]
        have hsum : (((widenInt x + (xs.map widenInt).sum : Int)) : Rat) =
            ((x :: xs).map numVal).sum := by
          rw [Int.cast_add, widenInt_cast hfam,
            map_widenInt_sum_cast fun e he => hall e (by simp [he])]
          simp
        simp only [hsum]
        congr 1
        congr 1
        simp [Nat.add_comm]
      | unsigned =>
        have hall : ∀ e ∈ x :: xs, famOf e = Fam.unsigned := by
          intro e he
          rcases List.mem_cons.1 he with rfl | he2
          · exact hfam
          · rw [hhom2 e he2, hfam]
        have hfit2 : ((x :: xs).map widenUInt).sum < 2 ^ 64 := by
          simpa [fits, hfam] using hfit
        simp only [List.map_cons, List.sum_cons] at hfit2
        simp only [Average, hfam]
        show F64.val
            ((((avgUIntLoop widenUInt (widenUInt x) 1 xs).1 : Nat) : Rat) /
              (((avgUIntLoop widenUInt (widenUInt x) 1 xs).2 : Nat) : Rat)) = _
        rw [avgUIntLoop_eq widenUInt xs (widenUInt x) 1 (by omega)]
        have hsum : (((widenUInt x + (xs.map widenUInt).sum : Nat)) : Rat) =
            ((x :: xs).map numVal).sum := by
          rw [Nat.cast_add, widenUInt_cast hfam,
            map_widenUInt_sum_cast fun e he => hall e (by simp [he])]
          simp
        simp only [hsum]
        congr 1
        congr 1
        simp [Nat.add_comm]
      | other =>
        have hall : ∀ e ∈ x :: xs, famOf e = Fam.other := by
          intro e he
          rcases List.mem_cons.1 he with rfl | he2
          · exact hfam
          · rw [hhom2 e he2, hfam]
        simp only [Average, hfam]
        show F64.val
            ((avgFloatLoop floatVal (floatVal x) 1 xs).1 /
              (((avgFloatLoop floatVal (floatVal x) 1 xs).2 : Nat) : Rat)) = _
        rw [avgFloatLoop_eq floatVal xs (floatVal x) 1]
        have hsum : floatVal x + (xs.map floatVal).sum = ((x :: xs).map numVal).sum := by
          rw [floatVal_eq hfam, map_floatVal_sum fun e he => hall e (by simp [he])]
          simp
        simp only [hsum]
        congr 1
        congr 1
        simp [Nat.add_comm]
  refine ⟨rfl, by simp [Average], hmain, ?_⟩
  have h := hmain [Elem.eint 2, Elem.eint 4] (by simp) (by decide) (by decide)
  rw [h]
  norm_num [numVal]

/-- Witness for C2: the average of the two int elements 2 and 4 is exactly
3, obtained through the quantified part of the claim theorem. -/
theorem average_spec_witness :
    Average [Elem.eint 2, Elem.eint 4] = F64.val 3 := by
  have h := average_spec.2.2.1 [Elem.eint 2, Elem.eint 4]
    (by simp) (by decide) (by decide)
  rw [h]
  norm_num [numVal]

/-- Positivity of the modelled comparer means a strictly greater numeric
value of the first argument. -/
theorem compareByNum_pos {a b : Elem} : 0 < compareByNum a b ↔ numVal b < numVal a := by
  unfold compareByNum
  split_ifs with h1 h2
  · constructor
    · intro h; exact absurd h (by norm_num)
    · intro h; exact absurd h1 (not_lt.2 h.le)
  · simp [h2]
  · constructor
    · intro h; exact absurd h (by norm_num)
    · intro h; exact absurd h h2

/-- Negativity of the modelled comparer means a strictly smaller numeric
value of the first argument. -/
theorem compareByNum_neg {a b : Elem} : compareByNum a b < 0 ↔ numVal a < numVal b := by
  unfold compareByNum
  split_ifs with h1 h2
  · simp [h1]
  · constructor
    · intro h; exact absurd h (by norm_num)
    · intro h; exact absurd h h1
  · constructor
    · intro h; exact absurd h (by norm_num)
    · intro h; exact absurd h h1

/-- Max loop agrees with the Mathlib first-tie-winning argmax seeded with
the first element. -/
theorem maxLoop_argmax :
    ∀ (l : Query) (r : Elem),
      List.argmax numVal (r :: l) = some (maxLoop compareByNum r l) := by
  have hstep : ∀ (l : Query) (r : Elem),
      List.foldl (List.argAux fun b c => numVal c < numVal b) (some r) l
        = some (maxLoop compareByNum r l) := by
    intro l
    induction l with
    | nil => intro r; simp [maxLoop]
    | cons x xs ih =>
      intro r
      rw [List.foldl_cons]
      have haux : List.argAux (fun b c => numVal c < numVal b) (some r) x
          = some (if compareByNum x r > 0 then x else r) := by
        show (if numVal r < numVal x then some x else some r)
            = some (if compareByNum x r > 0 then x else r)
        by_cases h : numVal r < numVal x
        · rw [if_pos h, if_pos (compareByNum_pos.2 h)]
        · rw [if_neg h, if_neg fun hc => h (compareByNum_pos.1 hc)]
      rw [haux, maxLoop]
      exact ih _
  intro l r
  unfold List.argmax
  rw [List.foldl_cons]
  exact hstep l r

/-- Min loop agrees with the Mathlib first-tie-winning argmin seeded with
the first element. -/
theorem minLoop_argmin :
    ∀ (l : Query) (r : Elem),
      List.argmin numVal (r :: l) = some (minLoop compareByNum r l) := by
  have hstep : ∀ (l : Query) (r : Elem),
      List.foldl (List.argAux fun b c => numVal b < numVal c) (some r) l
        = some (minLoop compareByNum r l) := by
    intro l
    induction l with
    | nil => intro r; simp [minLoop]
    | cons x xs ih =>
      intro r
      rw [List.foldl_cons]
      have haux : List.argAux (fun b c => numVal b < numVal c) (some r) x
          = some (if compareByNum x r < 0 then x else r) := by
        show (if numVal x < numVal r then some x else some r)
            = some (if compareByNum x r < 0 then x else r)
        by_cases h : numVal x < numVal r
        · rw [if_pos h, if_pos (compareByNum_neg.2 h)]
        · rw [if_neg h, if_neg fun hc => h (compareByNum_neg.1 hc)]
      rw [haux, minLoop]
      exact ih _
  intro l r
  unfold List.argmin
  rw [List.foldl_cons]
  exact hstep l r

/-- C3: `Max` and `Min` return nil on the empty sequence; on every
nonempty sequence the returned element is a member that is maximal
(respectively minimal) for the numeric-value comparer selected from the
first element, and among elements of equal value the earliest one in the
sequence is returned (a later tie never replaces the running best); the
maximum of 3, 1, 2 is 3 and the minimum is 1. -/
theorem max_min_spec :
    Max [] = none ∧ Min [] = none ∧
    (∀ (x : Elem) (xs : List Elem) (m : Elem), Max (x :: xs) = some m →
      m ∈ x :: xs ∧ (∀ y ∈ x :: xs, numVal y ≤ numVal m) ∧
      ∀ y ∈ x :: xs, numVal m ≤ numVal y →
        (x :: xs).indexOf m ≤ (x :: xs).indexOf y) ∧
    (∀ (x : Elem) (xs : List Elem) (m : Elem), Min (x :: xs) = some m →
      m ∈ x :: xs ∧ (∀ y ∈ x :: xs, numVal m ≤ numVal y) ∧
      ∀ y ∈ x :: xs, numVal y ≤ numVal m →
        (x :: xs).indexOf m ≤ (x :: xs).indexOf y) ∧
    (∀ (x : Elem) (xs : List Elem),
      (Max (x :: xs)).isSome = true ∧ (Min (x :: xs)).isSome = true) ∧
    Max [Elem.eint 3, Elem.eint 1, Elem.eint 2] = some (Elem.eint 3) ∧
    Min [Elem.eint 3, Elem.eint 1, Elem.eint 2] = some (Elem.eint 1) := by
  refine ⟨rfl, rfl, ?_, ?_, ?_, by decide, by decide⟩
  · intro x xs m hm
    have hloop : maxLoop compareByNum x xs = m := by
      simpa [Max, getComparer] using hm
    have hmem : m ∈ List.argmax numVal (x :: xs) := by
      rw [Option.mem_def, maxLoop_argmax, hloop]
    exact ⟨List.argmax_mem hmem,
      fun y hy => List.le_of_mem_argmax hy hmem,
      fun y hy hle => List.index_of_argmax hmem hy hle⟩
  · intro x xs m hm
    have hloop : minLoop compareByNum x xs = m := by
      simpa [Min, getComparer] using hm
    have hmem : m ∈ List.argmin numVal (x :: xs) := by
      rw [Option.mem_def, minLoop_argmin, hloop]
    exact ⟨List.argmin_mem hmem,
      fun y hy => List.le_of_mem_argmin hy hmem,
      fun y hy hle => List.index_of_argmin hmem hy hle⟩
  · intro x xs
    exact ⟨rfl, rfl⟩

/-- Witness for C3: on the sequence 3, 1, 2 the claim theorem yields the
maximum 3, which bounds the member 1 from above. -/
theorem max_min_spec_witness :
    Max [Elem.eint 3, Elem.eint 1, Elem.eint 2] = some (Elem.eint 3) ∧
    numVal (Elem.eint 1) ≤ numVal (Elem.eint 3) := by
  have h := max_min_spec.2.2.1 (Elem.eint 3) [Elem.eint 1, Elem.eint 2]
    (Elem.eint 3) (by decide)
  exact ⟨by decide, h.2.1 (Elem.eint 1) (by simp)⟩

/-- Set-flag loop with no further match keeps the recorded element and
scans to the end. -/
theorem singleWithLoop_true_nomatch (p : Elem → Bool) :
    ∀ (l : Query) (m : Elem), (∀ y ∈ l, p y = false) →
      singleWithLoop p true (some m) l = some m := by
  intro l
  induction l with
  | nil => intro m _; rfl
  | cons x xs ih =>
    intro m h
    have hx : p x = false := h x (by simp)
    simpa [singleWithLoop, hx] using ih m fun y hy => h y (by simp [hy])

/-- Set-flag loop on a further match returns nil. -/
theorem singleWithLoop_true_match (p : Elem → Bool) :
    ∀ (l₂ : Query) (m' : Elem) (l₃ : Query) (r : Option Elem),
      (∀ y ∈ l₂, p y = false) → p m' = true →
      singleWithLoop p true r (l₂ ++ m' :: l₃) = none := by
  intro l₂
  induction l₂ with
  | nil => intro m' l₃ r _ hm; simp [singleWithLoop, hm]
  | cons y ys ih =>
    intro m' l₃ r h hm
    have hy : p y = false := h y (by simp)
    simpa [singleWithLoop, hy] using ih m' l₃ r (fun z hz => h z (by simp [hz])) hm

/-- Clear-flag loop computes the unique-match result: the single match if
the filtered sequence is a singleton, nil otherwise. -/
theorem singleWithLoop_false (p : Elem → Bool) :
    ∀ l : Query,
      singleWithLoop p false none l =
        match l.filter p with
        | [m] => some m
        | _ => none := by
  intro l
  induction l with
  | nil => rfl
  | cons x xs ih =>
    by_cases hx : p x = true
    · rw [List.filter_cons_of_pos hx]
      cases hf : xs.filter p with
      | nil =>
        have hno : ∀ y ∈ xs, p y = false := by
          intro y hy
          have := List.filter_eq_nil_iff.1 hf y hy
          exact Bool.not_eq_true (p y) ▸ by simpa using this
        simp [singleWithLoop, hx, singleWithLoop_true_nomatch p xs x hno]
      | cons a as =>
        have hmem : a ∈ xs.filter p := by rw [hf]; simp
        have ha : p a = true := List.of_mem_filter hmem
        obtain ⟨l₂, l₃, hsplit, hpre⟩ :
            ∃ l₂ l₃, xs = l₂ ++ a :: l₃ ∧ ∀ y ∈ l₂, p y = false := by
          obtain ⟨l₂, l₃, h1, h2⟩ := List.filter_eq_cons_iff.1 hf
          exact ⟨l₂, l₃, h1.symm ▸ rfl, fun y hy => by
            have := h2.1 y hy
            simpa using this⟩
        subst hsplit
        simp [singleWithLoop, hx, singleWithLoop_true_match p l₂ a l₃ (some x) hpre ha]
    · have hx2 : p x = false := by simpa using hx
      rw [List.filter_cons_of_neg (by simp [hx2])]
      simpa [singleWithLoop, hx2] using ih

/-- Instrumented loop result agrees with the plain loop. -/
theorem singleWithLoopC_fst (p : Elem → Bool) :
    ∀ (l : Query) (found : Bool) (r : Option Elem) (c : Nat),
      (singleWithLoopC p found r c l).1 = singleWithLoop p found r l := by
  intro l
  induction l with
  | nil => intro found r c; rfl
  | cons x xs ih =>
    intro found r c
    by_cases hx : p x = true
    · cases found <;> simp [singleWithLoopC, singleWithLoop, hx, ih]
    · have hx2 : p x = false := by simpa using hx
      simp [singleWithLoopC, singleWithLoop, hx2, ih]

/-- Set-flag loop with no further match pulls every remaining element. -/
theorem singleWithLoopC_true_nomatch (p : Elem → Bool) :
    ∀ (l : Query) (r : Option Elem) (c : Nat), (∀ y ∈ l, p y = false) →
      (singleWithLoopC p true r c l).2 = c + l.length := by
  intro l
  induction l with
  | nil => intro r c _; rfl
  | cons x xs ih =>
    intro r c h
    have hx : p x = false := h x (by simp)
    have := ih r (c + 1) fun y hy => h y (by simp [hy])
    simp only [singleWithLoopC, hx, Bool.false_eq_true, if_false, this,
      List.length_cons]
    omega

/-- Set-flag loop stops right at the next match. -/
theorem singleWithLoopC_true_match (p : Elem → Bool) :
    ∀ (l₂ : Query) (m' : Elem) (l₃ : Query) (r : Option Elem) (c : Nat),
      (∀ y ∈ l₂, p y = false) → p m' = true →
      (singleWithLoopC p true r c (l₂ ++ m' :: l₃)).2 = c + l₂.length + 1 := by
  intro l₂
  induction l₂ with
  | nil => intro m' l₃ r c _ hm; simp [singleWithLoopC, hm]
  | cons y ys ih =>
    intro m' l₃ r c h hm
    have hy : p y = false := h y (by simp)
    have := ih m' l₃ r (c + 1) (fun z hz => h z (by simp [hz])) hm
    simp only [List.cons_append, singleWithLoopC, hy, Bool.false_eq_true,
      if_false, List.append_eq, this, List.length_cons]
    omega

/-- Clear-flag loop with at most one match pulls every element. -/
theorem singleWithLoopC_le_one (p : Elem → Bool) :
    ∀ (l : Query) (c : Nat), (l.filter p).length ≤ 1 →
      (singleWithLoopC p false none c l).2 = c + l.length := by
  intro l
  induction l with
  | nil => intro c _; rfl
  | cons x xs ih =>
    intro c h
    by_cases hx : p x = true
    · rw [List.filter_cons_of_pos hx] at h
      have hnil : xs.filter p = [] := by
        have : (xs.filter p).length = 0 := by
          simp only [List.length_cons] at h
          omega
        exact List.length_eq_zero.1 this
      have hno : ∀ y ∈ xs, p y = false := by
        intro y hy
        have := List.filter_eq_nil_iff.1 hnil y hy
        simpa using this
      have := singleWithLoopC_true_nomatch p xs (some x) (c + 1) hno
      simp only [singleWithLoopC, hx, if_true, Bool.false_eq_true, if_false,
        this, List.length_cons]
      omega
    · have hx2 : p x = false := by simpa using hx
      rw [List.filter_cons_of_neg (by simp [hx2])] at h
      have := ih (c + 1) h
      simp only [singleWithLoopC, hx2, Bool.false_eq_true, if_false, this,
        List.length_cons]
      omega

/-- Clear-flag loop stops right at the second match. -/
theorem singleWithLoopC_second (p : Elem → Bool) :
    ∀ (l₁ : Query) (m : Elem) (l₂ : Query) (m' : Elem) (l₃ : Query) (c : Nat),
      (∀ y ∈ l₁, p y = false) → (∀ y ∈ l₂, p y = false) →
      p m = true → p m' = true →
      (singleWithLoopC p false none c (l₁ ++ m :: l₂ ++ m' :: l₃)).2 =
        c + l₁.length + l₂.length + 2 := by
  intro l₁
  induction l₁ with
  | nil =>
    intro m l₂ m' l₃ c _ h2 hm hm'
    have := singleWithLoopC_true_match p l₂ m' l₃ (some m) (c + 1) h2 hm'
    simp only [List.nil_append, List.cons_append, singleWithLoopC, hm,
      if_true, Bool.false_eq_true, if_false, List.append_eq,
      List.length_nil] at this ⊢
    rw [this]
    omega
  | cons y ys ih =>
    intro m l₂ m' l₃ c h1 h2 hm hm'
    have hy : p y = false := h1 y (by simp)
    have := ih m l₂ m' l₃ (c + 1) (fun z hz => h1 z (by simp [hz])) h2 hm hm'
    simp only [List.cons_append, singleWithLoopC, hy, Bool.false_eq_true,
      if_false, List.append_eq, this, List.length_cons]
    omega

/-- C6 counterexample: `SingleWith` does not always scan the full
sequence.  On a three-element sequence whose elements all match, the loop
pulls only two elements before returning nil, exiting at the second
match. -/
theorem singleWith_cex :
    ¬ ∀ (p : Elem → Bool) (q : Query), (singleWithC p q).2 = q.length := by
  intro h
  have h2 := h (fun _ => true) [Elem.eint 1, Elem.eint 1, Elem.eint 2]
  exact absurd h2 (by decide)

/-- C6 amended: `SingleWith` returns the unique matching element when
exactly one element satisfies the predicate and nil when no element or
more than one element matches, tracking a found flag; it scans the full
sequence when at most one element matches, but exits early as soon as a
second match is found, without pulling the remaining elements. -/
theorem singleWith_spec :
    (∀ (p : Elem → Bool) (q : Query),
      SingleWith p q =
        match q.filter p with
        | [m] => some m
        | _ => none) ∧
    (∀ (p : Elem → Bool) (q : Query), (singleWithC p q).1 = SingleWith p q) ∧
    (∀ (p : Elem → Bool) (q : Query), (q.filter p).length ≤ 1 →
      (singleWithC p q).2 = q.length) ∧
    (∀ (p : Elem → Bool) (l₁ : Query) (m : Elem) (l₂ : Query) (m' : Elem)
        (l₃ : Query),
      (∀ y ∈ l₁, p y = false) → (∀ y ∈ l₂, p y = false) →
      p m = true → p m' = true →
      (singleWithC p (l₁ ++ m :: l₂ ++ m' :: l₃)).2 =
        l₁.length + l₂.length + 2) := by
  refine ⟨?_, ?_, ?_, ?_⟩
  · intro p q
    exact singleWithLoop_false p q
  · intro p q
    exact singleWithLoopC_fst p q false none 0
  · intro p q h
    simpa [singleWithC] using singleWithLoopC_le_one p q 0 h
  · intro p l₁ m l₂ m' l₃ h1 h2 hm hm'
    simpa [singleWithC] using
      singleWithLoopC_second p l₁ m l₂ m' l₃ 0 h1 h2 hm hm'

/-- Witness for C6 amended: with exactly one match the unique element is
returned after a full scan, and a second match stops the scan after two
pulls on an all-matching three-element sequence. -/
theorem singleWith_spec_witness :
    SingleWith (fun e => decide (e = Elem.eint 5))
      [Elem.eint 1, Elem.eint 5, Elem.eint 2] = some (Elem.eint 5) ∧
    (singleWithC (fun _ => true)
      ([] ++ Elem.eint 1 :: [] ++ Elem.eint 1 :: [Elem.eint 2])).2 = 2 := by
  constructor
  · have h := singleWith_spec.1 (fun e => decide (e = Elem.eint 5))
      [Elem.eint 1, Elem.eint 5, Elem.eint 2]
    rw [h]
    decide
  · have h := singleWith_spec.2.2.2 (fun _ => true) [] (Elem.eint 1) []
      (Elem.eint 1) [Elem.eint 2] (by simp) (by simp) rfl rfl
    simpa using h

/-- C7: a typed operator given a valid callable returns exactly what its
untyped counterpart returns on the wrapped predicate (`AllT` delegates to
`All`), and a callable whose shape does not match the declared constraint
raises the construction-time error without pulling a single element of
the sequence. -/
theorem allT_spec :
    (∀ (f : TypedFn) (q : Query),
      f.numIn = 1 → f.inGeneric = true → f.outBool = true →
      AllT f q = Except.ok (All f.run q)) ∧
    (∀ (f : TypedFn) (q : Query),
      ¬(f.numIn = 1 ∧ f.inGeneric = true ∧ f.outBool = true) →
      AllT f q = Except.error ("AllT" ++ ": invalid signature for " ++ "predicateFn") ∧
      (allTC f q).2 = 0) ∧
    (∀ (f : TypedFn) (q : Query), (allTC f q).1 = AllT f q) ∧
    (∀ (p : Elem → Bool) (q : Query), (allC p q).1 = All p q) := by
  have hAllC : ∀ (p : Elem → Bool) (q : Query), (allC p q).1 = All p q := by
    intro p q
    induction q with
    | nil => rfl
    | cons x xs ih =>
      by_cases hp : p x = true
      · simp [allC, All, hp, ih]
      · have hp2 : p x = false := by simpa using hp
        simp [allC, All, hp2]
  refine ⟨?_, ?_, ?_, hAllC⟩
  · intro f q h1 h2 h3
    simp [AllT, newGenericFunc, h1, h2, h3]
  · intro f q h
    exact ⟨by simp [AllT, newGenericFunc, h], by simp [allTC, newGenericFunc, h]⟩
  · intro f q
    by_cases h : f.numIn = 1 ∧ f.inGeneric = true ∧ f.outBool = true
    · simp [AllT, allTC, newGenericFunc, h, hAllC]
    · simp [AllT, allTC, newGenericFunc, h]

/-- Witness for C7: a valid one-parameter bool-returning callable makes
`AllT` agree with `All`, and a two-parameter callable is rejected with
zero elements pulled. -/
theorem allT_spec_witness :
    AllT { numIn := 1, inGeneric := true, outBool := true, run := fun _ => true }
      [Elem.eint 1] = Except.ok true ∧
    (allTC { numIn := 2, inGeneric := true, outBool := true, run := fun _ => true }
      [Elem.eint 1]).2 = 0 := by
  constructor
  · have h := allT_spec.1
      { numIn := 1, inGeneric := true, outBool := true, run := fun _ => true }
      [Elem.eint 1] rfl rfl rfl
    rw [h]
    rfl
  · exact (allT_spec.2.1
      { numIn := 2, inGeneric := true, outBool := true, run := fun _ => true }
      [Elem.eint 1] (by simp)).2

/-- Doubling loop result always reaches the requested length. -/
theorem doubleUntil_ge (c n : Nat) : n ≤ doubleUntil c n := by
  suffices h : ∀ (k c2 : Nat), n - c2 ≤ k → n ≤ doubleUntil c2 n from
    h (n - c) c le_rfl
  intro k
  induction k with
  | zero =>
    intro c2 hc
    rw [doubleUntil.eq_def]
    by_cases h0 : c2 = 0
    · rw [if_pos h0]
    · rw [if_neg h0, if_neg (by omega)]
      omega
  | succ k ih =>
    intro c2 hc
    rw [doubleUntil.eq_def]
    by_cases h0 : c2 = 0
    · rw [if_pos h0]
    · rw [if_neg h0]
      by_cases h1 : c2 < n
      · rw [if_pos h1]
        exact ih (2 * c2) (by omega)
      · rw [if_neg h1]
        omega

/-- Doubling loop result is at least the starting capacity. -/
theorem doubleUntil_ge_self (c n : Nat) : c ≤ doubleUntil c n := by
  suffices h : ∀ (k c2 : Nat), n - c2 ≤ k → c2 ≤ doubleUntil c2 n from
    h (n - c) c le_rfl
  intro k
  induction k with
  | zero =>
    intro c2 hc
    rw [doubleUntil.eq_def]
    by_cases h0 : c2 = 0
    · rw [if_pos h0]
      omega
    · rw [if_neg h0, if_neg (by omega)]
  | succ k ih =>
    intro c2 hc
    rw [doubleUntil.eq_def]
    by_cases h0 : c2 = 0
    · rw [if_pos h0]
      omega
    · rw [if_neg h0]
      by_cases h1 : c2 < n
      · rw [if_pos h1]
        have := ih (2 * c2) (by omega)
        omega
      · rw [if_neg h1]

/-- Growth within capacity keeps the view length bookkeeping. -/
theorem grow_len (s : GoSlice) (extra : Nat) :
    (grow s extra).len = s.len + extra := by
  unfold grow
  split
  · rfl
  · rfl

/-- Growth within capacity reuses the backing array unchanged. -/
theorem grow_reuse (s : GoSlice) (extra : Nat) (h : s.len + extra ≤ s.cap) :
    (grow s extra).storage = s.storage := by
  unfold grow
  rw [if_pos h]

/-- Capacity after a reallocation: the requested extra from zero capacity,
the doubling loop result otherwise. -/
theorem grow_cap_alloc (s : GoSlice) (extra : Nat) (hinv : s.len ≤ s.cap)
    (h : ¬s.len + extra ≤ s.cap) :
    (grow s extra).cap =
      if s.cap = 0 then extra else doubleUntil s.cap (s.len + extra) := by
  unfold grow GoSlice.cap
  unfold GoSlice.cap at hinv h
  rw [if_neg h]
  show (s.storage.take s.len ++
      List.replicate
        ((if s.storage.length = 0 then extra
          else doubleUntil s.storage.length (s.len + extra)) - s.len)
        none).length =
      if s.storage.length = 0 then extra
      else doubleUntil s.storage.length (s.len + extra)
  have hlen : s.len ≤ if s.storage.length = 0 then extra
      else doubleUntil s.storage.length (s.len + extra) := by
    by_cases h0 : s.storage.length = 0
    · rw [if_pos h0]
      omega
    · rw [if_neg h0]
      have h1 := doubleUntil_ge s.storage.length (s.len + extra)
      omega
  rw [List.length_append, List.length_take, List.length_replicate,
    Nat.min_eq_left hinv]
  omega

/-- Growth preserves the already-written prefix of the backing array. -/
theorem grow_take (s : GoSlice) (extra : Nat) (hinv : s.len ≤ s.cap)
    (i : Nat) (hi : i ≤ s.len) :
    (grow s extra).storage.take i = s.storage.take i := by
  unfold grow
  split
  · rfl
  · show ((s.storage.take s.len ++ _).take i : List (Option Elem)) = _
    unfold GoSlice.cap at hinv
    rw [List.take_append_of_le_length
        (by rw [List.length_take, Nat.min_eq_left hinv]; exact hi),
      List.take_take, Nat.min_eq_left hi]

/-- Growth preserves the length-within-capacity invariant. -/
theorem grow_inv (s : GoSlice) (extra : Nat) (hinv : s.len ≤ s.cap) :
    (grow s extra).len ≤ (grow s extra).cap := by
  by_cases h : s.len + extra ≤ s.cap
  · have hst := grow_reuse s extra h
    rw [grow_len]
    unfold GoSlice.cap
    rw [hst]
    exact h
  · rw [grow_len, grow_cap_alloc s extra hinv h]
    by_cases h0 : s.cap = 0
    · rw [if_pos h0]
      unfold GoSlice.cap at hinv h0
      omega
    · rw [if_neg h0]
      exact doubleUntil_ge s.cap (s.len + extra)

/-- Setting an element just below the taken prefix extends the prefix by
that element. -/
theorem take_set_succ :
    ∀ (l : List (Option Elem)) (i : Nat) (v : Option Elem), i < l.length →
      (l.set i v).take (i + 1) = l.take i ++ [v] := by
  intro l
  induction l with
  | nil =>
    intro i v h
    simp at h
  | cons a as ih =>
    intro i v h
    cases i with
    | zero => simp
    | succ j =>
      have hj : j < as.length := by simpa using h
      simp only [List.set_cons_succ, List.take_succ_cons, ih j v hj,
        List.cons_append]

/-- Copy-loop invariant of `ToSlice`: starting at a write index within the
view and with the view within capacity, the loop writes the elements in
order right after the preserved prefix, produces the final index equal to
the number of elements seen, and keeps the view within capacity, the
index within the view. -/
theorem toSliceLoop_spec :
    ∀ (l : Query) (s : GoSlice) (index : Nat),
      index ≤ s.len → s.len ≤ s.cap →
      (toSliceLoop s index l).2 = index + l.length ∧
      (toSliceLoop s index l).1.len ≤ (toSliceLoop s index l).1.cap ∧
      index + l.length ≤ (toSliceLoop s index l).1.len ∧
      (toSliceLoop s index l).1.storage.take (index + l.length) =
        s.storage.take index ++ l.map some := by
  intro l
  induction l with
  | nil =>
    intro s index h1 h2
    exact ⟨by simp [toSliceLoop], by simpa [toSliceLoop] using h2,
      by simpa [toSliceLoop] using h1, by simp [toSliceLoop]⟩
  | cons x xs ih =>
    intro s index h1 h2
    set s1 := if s.len ≤ index then grow s 1 else s with hs1
    have hprops : index < s1.len ∧ s1.len ≤ s1.cap ∧
        s1.storage.take index = s.storage.take index := by
      by_cases hg : s.len ≤ index
      · have hix : index = s.len := le_antisymm h1 hg
        rw [hs1, if_pos hg]
        refine ⟨?_, grow_inv s 1 h2, ?_⟩
        · rw [grow_len]
          omega
        · exact grow_take s 1 h2 index (le_of_eq hix)
      · rw [hs1, if_neg hg]
        exact ⟨by omega, h2, rfl⟩
    have hset_len : (s1.setAt index x).len = s1.len := rfl
    have hset_cap : (s1.setAt index x).cap = s1.cap := by
      unfold GoSlice.setAt GoSlice.cap
      simp
    have hidx_lt : index < s1.storage.length :=
      lt_of_lt_of_le hprops.1 hprops.2.1
    have htake : (s1.setAt index x).storage.take (index + 1) =
        s.storage.take index ++ [some x] := by
      unfold GoSlice.setAt
      show (s1.storage.set index (some x)).take (index + 1) = _
      rw [take_set_succ s1.storage index (some x) hidx_lt, hprops.2.2]
    have hloop : toSliceLoop s index (x :: xs) =
        toSliceLoop (s1.setAt index x) (index + 1) xs := by
      simp only [toSliceLoop]
    obtain ⟨ih1, ih2, ih3, ih4⟩ := ih (s1.setAt index x) (index + 1)
      (by rw [hset_len]; exact hprops.1) (by rw [hset_len, hset_cap]; exact hprops.2.1)
    rw [hloop]
    refine ⟨?_, ih2, ?_, ?_⟩
    · rw [ih1]
      simp only [List.length_cons]
      omega
    · simp only [List.length_cons]
      omega
    · have hc : index + (x :: xs).length = index + 1 + xs.length := by
        simp only [List.length_cons]
        omega
      rw [hc, ih4, htake]
      simp

/-- C5: `ToSlice` writes the elements in sequence order at increasing
indices and leaves the destination with final length exactly the element
count; `grow` reuses the backing array whenever the new length fits the
existing capacity and at least doubles the capacity whenever a
reallocation is required; a capacity-2 destination receiving one element
is trimmed to length 1 keeping its capacity, and a capacity-0 destination
receiving five elements doubles up to capacity 8 with final length
exactly 5. -/
theorem toSlice_spec :
    (∀ (q : Query) (res : GoSlice), res.len ≤ res.cap →
      (ToSlice q res).len = q.length ∧
      (ToSlice q res).storage.take q.length = q.map some) ∧
    (∀ (s : GoSlice) (extra : Nat), s.len + extra ≤ s.cap →
      (grow s extra).storage = s.storage) ∧
    (∀ (s : GoSlice) (extra : Nat), s.len ≤ s.cap → 0 < s.cap →
      s.cap < s.len + extra → 2 * s.cap ≤ (grow s extra).cap) ∧
    ToSlice [Elem.eint 7] { storage := [none, none], len := 2 } =
      { storage := [some (Elem.eint 7), none], len := 1 } ∧
    (ToSlice [Elem.eint 1, Elem.eint 2, Elem.eint 3, Elem.eint 4, Elem.eint 5]
      { storage := [], len := 0 }).len = 5 ∧
    (ToSlice [Elem.eint 1, Elem.eint 2, Elem.eint 3, Elem.eint 4, Elem.eint 5]
      { storage := [], len := 0 }).cap = 8 ∧
    (ToSlice [Elem.eint 1, Elem.eint 2, Elem.eint 3, Elem.eint 4, Elem.eint 5]
      { storage := [], len := 0 }).storage.take 5 =
      [Elem.eint 1, Elem.eint 2, Elem.eint 3, Elem.eint 4,
        Elem.eint 5].map some := by
  have hmain : ∀ (q : Query) (res : GoSlice), res.len ≤ res.cap →
      (ToSlice q res).len = q.length ∧
      (ToSlice q res).storage.take q.length = q.map some := by
    intro q res hinv
    obtain ⟨h1, _, _, h4⟩ := toSliceLoop_spec q res 0 (by omega) hinv
    constructor
    · show (toSliceLoop res 0 q).2 = q.length
      rw [h1]
      omega
    · show (toSliceLoop res 0 q).1.storage.take q.length = q.map some
      simpa using h4
  have hdouble : ∀ (s : GoSlice) (extra : Nat), s.len ≤ s.cap → 0 < s.cap →
      s.cap < s.len + extra → 2 * s.cap ≤ (grow s extra).cap := by
    intro s extra hinv hpos hlt
    rw [grow_cap_alloc s extra hinv (by omega), if_neg (by omega)]
    rw [doubleUntil.eq_def, if_neg (by omega), if_pos hlt]
    exact doubleUntil_ge_self (2 * s.cap) (s.len + extra)
  refine ⟨hmain, grow_reuse, hdouble, by decide, ?_, ?_, ?_⟩
  · exact (hmain [Elem.eint 1, Elem.eint 2, Elem.eint 3, Elem.eint 4, Elem.eint 5]
      { storage := [], len := 0 } (by decide)).1
  · show (toSliceLoop { storage := [], len := 0 } 0 _).1.storage.length = 8
    have d12 : doubleUntil 1 2 = 2 := by
      rw [doubleUntil.eq_def, if_neg (by norm_num), if_pos (by norm_num),
        doubleUntil.eq_def, if_neg (by norm_num), if_neg (by norm_num)]
    have d23 : doubleUntil 2 3 = 4 := by
      rw [doubleUntil.eq_def, if_neg (by norm_num), if_pos (by norm_num),
        doubleUntil.eq_def, if_neg (by norm_num), if_neg (by norm_num)]
    have d45 : doubleUntil 4 5 = 8 := by
      rw [doubleUntil.eq_def, if_neg (by norm_num), if_pos (by norm_num),
        doubleUntil.eq_def, if_neg (by norm_num), if_neg (by norm_num)]
    norm_num [toSliceLoop, grow, GoSlice.setAt, GoSlice.cap, d12, d23, d45]
  · exact (hmain [Elem.eint 1, Elem.eint 2, Elem.eint 3, Elem.eint 4, Elem.eint 5]
      { storage := [], len := 0 } (by decide)).2

/-- Witness for C5: the capacity-2 destination receiving one element ends
with length exactly 1. -/
theorem toSlice_spec_witness :
    (ToSlice [Elem.eint 7] { storage := [none, none], len := 2 }).len = 1 := by
  have h := toSlice_spec.1 [Elem.eint 7] { storage := [none, none], len := 2 }
    (by decide)
  simpa using h.1

end GoLinq
